import Mathlib

/-!
Verification development for the tayt StarkNet contract fuzzer.

We shallowly embed the fuzzing core of the repository:
  * `src/tayt/generator.py` — the fuzzed-value generator (`TxGenerator`),
  * `src/tayt/fuzzer_worker.py` — the property-mode worker (`FuzzerWorker`),
  * `src/tayt/workers/fuzzer_worker_exception.py` — the exception-mode worker
    (`FuzzerWorkerException`).

The execution substrate (StarknetState) is an external collaborator; it is
modeled as an abstract deterministic machine `Machine σ` with a state type σ,
a mutating entry point `invoke_raw` (which either succeeds, producing a new
state and a `CallInfo`, or raises a StarkException carrying a diagnostic
message) and a read-only entry point `call_raw` used for property checks.
Property functions under test are `view` functions returning one felt, so the
read-only call is modeled as non-reverting.  `state.copy()` in the source makes
snapshots value-like; in the pure model replay simply restarts from the
baseline state value.  Randomness (`random.random`, `random.randint`,
`random.choice`) is modeled by explicit draw records supplied as inputs.
Coverage accumulation (`self.fuzzer.coverage`) and logging feed only the
coverage report and are not modeled.
-/

namespace Tayt

/-- An emitted StarkNet event (`Event` objects of `get_sorted_events()`):
a list of keys and a data payload. -/
structure Event where
  keys : List Nat
  data : List Nat
deriving DecidableEq, Repr

/-- The part of a call's result the fuzzing core reads: the return data
(`call_info.retdata`) and the ordered emitted events
(`call_info.get_sorted_events()`). -/
structure CallInfo where
  retdata : List Nat
  events_emitted : List Event
deriving DecidableEq, Repr

/-- `EntryPointType` of the starknet services api: `EXTERNAL` for plain
functions, `L1_HANDLER` for l1 handler functions. -/
inductive EntryPointType where
  | External
  | L1Handler
deriving DecidableEq, Repr

/-- The tuple returned by `TxGenerator.generate_fuzzed_tx`:
`(sender, function_name, arguments, entry_point_type, nonce)`. -/
structure FuzzedTx where
  sender : Nat
  function_name : String
  arguments : List Nat
  entry_point_type : EntryPointType
  nonce : Option Nat
deriving DecidableEq, Repr

/-- `TxSequenceElement` namedtuple of `fuzzer_worker.py`. -/
structure TxSequenceElement where
  sender : Nat
  function_name : String
  arguments : List Nat
  entry_point_type : EntryPointType
  nonce : Option Nat
  events_emitted : List Event
deriving DecidableEq, Repr

/-- `ViolatedProperty` namedtuple of `fuzzer_worker.py`. -/
structure ViolatedProperty where
  name : String
  events_emitted : List Event
deriving DecidableEq, Repr

/-- Result of `state.invoke_raw`: either success with the new state and call
info, or a `StarkException` carrying a diagnostic message. -/
inductive InvokeResult (σ : Type) where
  | ok (s : σ) (info : CallInfo)
  | exn (message : String)

/-- The execution substrate (StarknetState), abstracted: a deterministic
machine over states σ.  `invoke_raw s tx` submits a mutating call (the
deployed contract address and the `value = 0` argument are fixed and folded
into the machine).  `call_raw s property_function` performs the read-only
property call (with calldata `[]` and the configured property sender). -/
structure Machine (σ : Type) where
  invoke_raw : σ → FuzzedTx → InvokeResult σ
  call_raw : σ → String → CallInfo

/-- The transaction recorded for a `TxSequenceElement`. -/
def txOf (e : TxSequenceElement) : FuzzedTx :=
  ⟨e.sender, e.function_name, e.arguments, e.entry_point_type, e.nonce⟩

/-- Build a `TxSequenceElement` from a generated transaction and the events
its execution emitted. -/
def elemOf (tx : FuzzedTx) (events : List Event) : TxSequenceElement :=
  ⟨tx.sender, tx.function_name, tx.arguments, tx.entry_point_type, tx.nonce, events⟩

/-! ### Value generator (`src/tayt/generator.py`) -/

/-- `DEFAULT_PRIME` of `starkware.cairo.lang.cairo_constants`: the STARK
field prime. -/
def DEFAULT_PRIME : Nat := 2 ^ 251 + 17 * 2 ^ 192 + 1

/-- `random.randint(a, b)`: an integer in `[a, b]`, both ends included.
The draw is determined by a seed `s`; any value of the range is reachable
and no value outside it is. -/
def randint (a b s : Nat) : Nat := a + s % (b + 1 - a)

/-- One call's worth of randomness for `TxGenerator._generate_int`:
the `random.random()` draw `r` (a real in `[0,1)`, modeled as a rational),
the `random.choice` index among the three edge-case candidates, and seeds
for the `random.randint` draws (`e0`, `e1`, `e2` for the three edge-case
candidates, `d` for the single draw of the non-edge branches). -/
structure IntDraw where
  r : ℚ
  choice : Fin 3
  e0 : Nat
  e1 : Nat
  e2 : Nat
  d : Nat

/-- `TxGenerator._generate_int`: draw one field element from the four-bucket
distribution.  Mirrors the source: with `r < 0.5` choose uniformly among the
three edge-case draws; with `0.5 <= r < 0.7` a value within the range-check
bound; with `0.7 <= r < 0.8` a value in `[2^128, P // 2 - 1]`; otherwise a
value in `[P // 2, P - 1]` (`//` is Python floor division). -/
def generate_int (dr : IntDraw) : Nat :=
  if dr.r < 1 / 2 then
    [randint 0 2 dr.e0,
     randint (2 ^ 128 - 1) (2 ^ 128 + 1) dr.e1,
     randint (DEFAULT_PRIME - 3) (DEFAULT_PRIME - 1) dr.e2].get dr.choice
  else if dr.r < 7 / 10 then
    randint 0 (2 ^ 128 - 1) dr.d
  else if dr.r < 4 / 5 then
    randint (2 ^ 128) (DEFAULT_PRIME / 2 - 1) dr.d
  else
    randint (DEFAULT_PRIME / 2) (DEFAULT_PRIME - 1) dr.d

/-- `TxGenerator._generate_array_length`: `random.randint(1, 10)`. -/
def generate_array_length (s : Nat) : Nat := randint 1 10 s

/-- `CairoType` argument-shape tree (`starkware.cairo.lang.compiler.ast`):
felt scalars, pointers (dynamically sized arrays), tuples and named structs.
The source resolves a struct's members from `fuzzer.struct_definition` by
name at generation time; since Cairo struct definitions are finite and
acyclic, the embedding carries the resolved member list on the node. -/
inductive CairoType where
  | TypeFelt
  | TypePointer (pointee : CairoType)
  | TypeTuple (types : List CairoType)
  | TypeStruct (name : String) (members : List CairoType)

/-- The random source consumed while generating one argument list: a stream
of `_generate_int` draw records and a stream of array-length seeds, consumed
in order. -/
structure Entropy where
  intDraws : Nat → IntDraw
  lenSeeds : Nat → Nat

mutual

/-- `TxGenerator._generate_value`: lower one `CairoType` to the flat scalar
calldata it contributes.  The pair `(ci, cl)` counts the int draws and
length draws consumed so far; the source appends to a shared `calldata`
list, the embedding returns the appended chunk. -/
def generate_value (ent : Entropy) : CairoType → Nat × Nat → List Nat × (Nat × Nat)
  | .TypeFelt, (ci, cl) => ([generate_int (ent.intDraws ci)], (ci + 1, cl))
  | .TypePointer p, (ci, cl) =>
      let len := generate_array_length (ent.lenSeeds cl)
      let rest := generate_repeat ent p len (ci, cl + 1)
      (len :: rest.1, rest.2)
  | .TypeTuple ts, c => generate_seq ent ts c
  | .TypeStruct _ ms, c => generate_seq ent ms c

/-- Generate each type of a list in declared order, concatenating the
results (the tuple/struct member loops of `_generate_value`). -/
def generate_seq (ent : Entropy) : List CairoType → Nat × Nat → List Nat × (Nat × Nat)
  | [], c => ([], c)
  | t :: ts, c =>
      let v := generate_value ent t c
      let vs := generate_seq ent ts v.2
      (v.1 ++ vs.1, vs.2)

/-- Generate `n` successive values of the pointee type (the
`for _ in range(length)` loop of the `TypePointer` branch). -/
def generate_repeat (ent : Entropy) (t : CairoType) : Nat → Nat × Nat → List Nat × (Nat × Nat)
  | 0, c => ([], c)
  | n + 1, c =>
      let v := generate_value ent t c
      let vs := generate_repeat ent t n v.2
      (v.1 ++ vs.1, vs.2)

end

/-- `TxGenerator._generate_fuzzed_abi_value`: generate the flat argument
list for a function's full abi parameter list. -/
def generate_fuzzed_abi_value (ent : Entropy) (abi : List CairoType) : List Nat :=
  (generate_seq ent abi (0, 0)).1

/-- The edge-case set of `_generate_int`'s first bucket: values in `[0, 2]`,
values within one of `2^128`, and values in `[P - 3, P - 1]`. -/
def isEdgeCase (v : Nat) : Prop :=
  v ≤ 2 ∨ (2 ^ 128 - 1 ≤ v ∧ v ≤ 2 ^ 128 + 1) ∨
    (DEFAULT_PRIME - 3 ≤ v ∧ v ≤ DEFAULT_PRIME - 1)

instance (v : Nat) : Decidable (isEdgeCase v) := by
  unfold isEdgeCase; infer_instance

/-! ### Property-mode worker (`src/tayt/fuzzer_worker.py`)

The worker's mutable context consists of the execution state (`self.state`,
reset to `self.fuzzer.state.copy()` at every sequence/trial) and the obligation
set `self.fuzzer.property_functions`; both are threaded explicitly. -/

/-- The loop body of `FuzzerWorker._check_violated_property_tests`, with
Python's iterator semantics made explicit: the `for` iterator keeps an index
`k` into the (possibly mutated) list and yields `props[k]`, incrementing `k`;
in no-shrink mode `props.remove(property_function)` deletes the first
occurrence of the yielded name, shifting later entries one slot down, so the
entry that slides into the yielded position is skipped. -/
def checkLoop {σ : Type} (m : Machine σ) (s : σ) (noShrink : Bool) :
    List String → Nat → List ViolatedProperty → List String × List ViolatedProperty
  | props, k, acc =>
    if h : k < props.length then
      let pf := props.get ⟨k, h⟩
      let info := m.call_raw s pf
      if info.retdata = [0] then
        let props' := if noShrink then props.erase pf else props
        checkLoop m s noShrink props' (k + 1) (acc ++ [⟨pf, info.events_emitted⟩])
      else
        checkLoop m s noShrink props (k + 1) acc
    else
      (props, acc)
termination_by props k _ => props.length - k
decreasing_by
  all_goals simp_wf
  · have hm : props.get ⟨k, h⟩ ∈ props := props.get_mem k h
    by_cases hn : noShrink <;>
      simp [hn, List.length_erase_of_mem hm] <;> omega
  · omega

/-- `FuzzerWorker._check_violated_property_tests`: poll every still-live
property via a read-only call; a property answering `[0]` is violated and, in
no-shrink mode, removed from the obligation set on the spot.  Returns the
resulting obligation set and the violated properties with their emitted
events. -/
def check_violated_property_tests {σ : Type} (m : Machine σ) (s : σ)
    (noShrink : Bool) (props : List String) :
    List String × List ViolatedProperty :=
  checkLoop m s noShrink props 0 []

/-- The `for _ in range(seq_len)` loop of `FuzzerWorker._test_tx_sequence`.
`n` is the remaining iteration budget, `k` the absolute iteration index used
to address the generated-transaction stream `gen`, `s` the current execution
state, `acc` the sequence built so far.  A revert (`StarkException`) discards
the call; a success appends the element and polls the oracle, returning as
soon as it reports violations. -/
def testLoop {σ : Type} (m : Machine σ) (gen : Nat → FuzzedTx) (noShrink : Bool) :
    Nat → Nat → σ → List TxSequenceElement → List String →
      Option (List TxSequenceElement × List ViolatedProperty) × List String
  | 0, _, _, _, props => (none, props)
  | n + 1, k, s, acc, props =>
    let tx := gen k
    match m.invoke_raw s tx with
    | .exn _ => testLoop m gen noShrink n (k + 1) s acc props
    | .ok s' info =>
      let acc' := acc ++ [elemOf tx info.events_emitted]
      let res := check_violated_property_tests m s' noShrink props
      if res.2.length > 0 then (some (acc', res.2), res.1)
      else testLoop m gen noShrink n (k + 1) s' acc' res.1

/-- `FuzzerWorker._test_tx_sequence`: reset the state to a copy of the
baseline and run up to `seqLen` generated transactions; returns
`(None, None)` (here `none`) when the budget runs out with no violation.
The final obligation set is returned alongside. -/
def test_tx_sequence {σ : Type} (m : Machine σ) (gen : Nat → FuzzedTx)
    (noShrink : Bool) (seqLen : Nat) (baseline : σ) (props : List String) :
    Option (List TxSequenceElement × List ViolatedProperty) × List String :=
  testLoop m gen noShrink seqLen 0 baseline [] props

/-- The shrink-trial replay (`for transaction in test_sequence` loop of
`FuzzerWorker._shrink_tx_sequence`): replay recorded transactions from a
state, discarding reverts. -/
def replaySequence {σ : Type} (m : Machine σ) : σ → List TxSequenceElement → σ
  | s, [] => s
  | s, e :: rest =>
    match m.invoke_raw s (txOf e) with
    | .ok s' _ => replaySequence m s' rest
    | .exn _ => replaySequence m s rest

/-- The `while i < len(shrinked_sequence)` loop of
`FuzzerWorker._shrink_tx_sequence`, written with an explicit fuel so that
termination is itself a theorem rather than a definitional hypothesis:
`none` means the fuel ran out (shown unreachable for fuel exceeding
`cand.length - i`).  One step removes element `i`, replays the trial from a
copy of the baseline, polls the oracle once, and adopts the trial (keeping
`i`) exactly when the violated-property count matches `target`; otherwise
the cursor advances. -/
def shrinkLoop {σ : Type} (m : Machine σ) (baseline : σ) (noShrink : Bool)
    (target : Nat) :
    Nat → List TxSequenceElement → Nat → List String →
      Option (List TxSequenceElement × List String)
  | 0, _, _, _ => none
  | fuel + 1, cand, i, props =>
    if i < cand.length then
      let test := cand.take i ++ cand.drop (i + 1)
      let s := replaySequence m baseline test
      let res := check_violated_property_tests m s noShrink props
      if res.2.length = target then
        shrinkLoop m baseline noShrink target fuel test i res.1
      else
        shrinkLoop m baseline noShrink target fuel cand (i + 1) res.1
    else
      some (cand, props)

/-- `FuzzerWorker._shrink_tx_sequence`: one-pass delta debugging of a failing
sequence, then retirement of the originally violated properties from the
obligation set (`self.fuzzer.property_functions.remove(p.name)`).  The fuel
`transactions.length + 1` always suffices (see the termination theorem); the
fallback branch is unreachable. -/
def shrink_tx_sequence {σ : Type} (m : Machine σ) (baseline : σ)
    (noShrink : Bool) (transactions : List TxSequenceElement)
    (properties_violated : List ViolatedProperty) (props : List String) :
    List TxSequenceElement × List String :=
  match shrinkLoop m baseline noShrink properties_violated.length
      (transactions.length + 1) transactions 0 props with
  | some (cand, props') =>
      (cand, properties_violated.foldl (fun ps p => ps.erase p.name) props')
  | none => (transactions, props)

/-- One pass of the `while 1` body of `FuzzerWorker.fuzz`: test a sequence;
on a violation, shrink it unless the no-shrink flag is set.  Returns the
reported (sequence, violations) finding, if any, and the obligation set after
the pass. -/
def fuzz_iteration {σ : Type} (m : Machine σ) (gen : Nat → FuzzedTx)
    (noShrink : Bool) (seqLen : Nat) (baseline : σ) (props : List String) :
    Option (List TxSequenceElement × List ViolatedProperty) × List String :=
  match test_tx_sequence m gen noShrink seqLen baseline props with
  | (none, props') => (none, props')
  | (some (txs, viol), props') =>
    if noShrink then (some (txs, viol), props')
    else
      let r := shrink_tx_sequence m baseline noShrink txs viol props'
      (some (r.1, viol), r.2)

/-- The violated-property count observed by replaying a sequence from the
baseline and polling the oracle once — the equivalence measure the shrinker
tests against (`len(violated) == len(properties_violated)`). -/
def replayCount {σ : Type} (m : Machine σ) (baseline : σ)
    (props : List String) (seq : List TxSequenceElement) : Nat :=
  (check_violated_property_tests m (replaySequence m baseline seq) false props).2.length

/-! ### Exception-mode worker (`src/tayt/workers/fuzzer_worker_exception.py`)

Obligations are the distinct `AssertionException` message templates
(`self.fuzzer.assertion_exception : List[str]`).  A revert's diagnostic is
inspected: its last line must start with the internal-assertion signature,
and the payload after the first `": "` must start with a registered
template.  `last_line.split(": ")[1]` raises `IndexError` — an uncaught
process crash — when the line contains no `": "`; the embedding surfaces
that path explicitly instead of inventing a value for it. -/

/-- The qualified-name signature an internal assertion leaves on the last
line of a revert's diagnostic. -/
def assertionSig : String := "tayt.workers.fuzzer_worker_exception.AssertionException"

/-- Python `s.startswith(pre)`: `pre` is a character-sequence prefix of
`s`. -/
def strStartsWith (s pre : String) : Bool := pre.data.isPrefixOf s.data

/-- Python `s.split("\n")` on the character sequence: maximal segments
between occurrences of `'\n'`; always nonempty, `[""]` on the empty
string. -/
def splitLines : List Char → List (List Char)
  | [] => [[]]
  | c :: rest =>
    if c = '\n' then [] :: splitLines rest
    else
      match splitLines rest with
      | [] => [[c]]
      | g :: gs => (c :: g) :: gs

/-- Python `s.split(": ")` on the character sequence: maximal segments
between non-overlapping occurrences of `": "`, scanned left to right. -/
def splitColonSpace : List Char → List (List Char)
  | [] => [[]]
  | [c] => [[c]]
  | c1 :: c2 :: rest =>
    if c1 = ':' ∧ c2 = ' ' then [] :: splitColonSpace rest
    else
      match splitColonSpace (c2 :: rest) with
      | [] => [[c1]]
      | g :: gs => (c1 :: g) :: gs

/-- `e.message.split("\n")[-1]`: the last line of a diagnostic.  Python's
`str.split` always returns a nonempty list, so the default is unreachable. -/
def lastLine (message : String) : String :=
  String.mk ((splitLines message.data).getLastD [])

/-- `last_line.split(": ")[1]`: the assertion payload, or `none` when the
indexing would raise `IndexError`.  Note the payload is the second `": "`
separated chunk, not everything after the first separator. -/
def extractMessage (line : String) : Option String :=
  ((splitColonSpace line.data).get? 1).map String.mk

/-- Outcome of one exception-mode loop (`_test_tx_sequence` of
`FuzzerWorkerException`): `none` models the uncaught `IndexError` crash;
otherwise the optional finding and the resulting obligation set. -/
def testExcLoop {σ : Type} (m : Machine σ) (gen : Nat → FuzzedTx) :
    Nat → Nat → σ → List TxSequenceElement → List String →
      Option (Option (List TxSequenceElement × String) × List String)
  | 0, _, _, _, exns => some (none, exns)
  | n + 1, k, s, acc, exns =>
    let tx := gen k
    match m.invoke_raw s tx with
    | .ok s' info =>
        testExcLoop m gen n (k + 1) s' (acc ++ [elemOf tx info.events_emitted]) exns
    | .exn em =>
      let ll := lastLine em
      if strStartsWith ll assertionSig then
        -- The reverted call is appended (with empty events) before the
        -- template match is attempted; on no match it stays in the sequence.
        let acc' := acc ++ [elemOf tx []]
        match extractMessage ll with
        | none => none
        | some message =>
          match exns.find? (fun t => strStartsWith message t) with
          | some t => some (some (acc', message), exns.erase t)
          | none => testExcLoop m gen n (k + 1) s acc' exns
      else
        testExcLoop m gen n (k + 1) s acc exns

/-- `FuzzerWorkerException._test_tx_sequence`: run up to `seqLen` generated
transactions from a copy of the baseline; a revert whose extracted assertion
message starts with a live template is a violation: the template is removed
from the obligation set immediately and the (sequence, message) finding
returned. -/
def test_tx_sequence_exc {σ : Type} (m : Machine σ) (gen : Nat → FuzzedTx)
    (seqLen : Nat) (baseline : σ) (exns : List String) :
    Option (Option (List TxSequenceElement × String) × List String) :=
  testExcLoop m gen seqLen 0 baseline [] exns

/-- The trial replay of `FuzzerWorkerException._shrink_tx_sequence`
(`for transaction in test_sequence` with its `break`): replay recorded
transactions, and stop with `true` at the first revert whose extracted
assertion message equals — full string equality — the original violation's
message `excMsg`.  Reverts with a different or non-assertion diagnostic are
skipped; `none` models the `IndexError` crash. -/
def shrinkExcReplay {σ : Type} (m : Machine σ) (excMsg : String) :
    σ → List TxSequenceElement → Option Bool
  | _, [] => some false
  | s, e :: rest =>
    match m.invoke_raw s (txOf e) with
    | .ok s' _ => shrinkExcReplay m excMsg s' rest
    | .exn em =>
      let ll := lastLine em
      if strStartsWith ll assertionSig then
        match extractMessage ll with
        | none => none
        | some message =>
          if message = excMsg then some true
          else shrinkExcReplay m excMsg s rest
      else shrinkExcReplay m excMsg s rest

/-- Result of the exception-mode shrink loop: the shrunk sequence, the
`IndexError` crash, or fuel exhaustion (an artifact of the fueled encoding,
shown unreachable for fuel exceeding `cand.length - i`). -/
inductive ShrinkExcResult where
  | out (seq : List TxSequenceElement)
  | crash
  | fuelOut
deriving DecidableEq, Repr

/-- The `while i < len(shrinked_sequence)` loop of
`FuzzerWorkerException._shrink_tx_sequence`: remove element `i`, replay the
trial from a copy of the baseline; if the original assertion message was
reproduced exactly, adopt the trial keeping `i`, else advance the cursor. -/
def shrinkExcLoop {σ : Type} (m : Machine σ) (baseline : σ) (excMsg : String) :
    Nat → List TxSequenceElement → Nat → ShrinkExcResult
  | 0, _, _ => .fuelOut
  | fuel + 1, cand, i =>
    if i < cand.length then
      let test := cand.take i ++ cand.drop (i + 1)
      match shrinkExcReplay m excMsg baseline test with
      | none => .crash
      | some true => shrinkExcLoop m baseline excMsg fuel test i
      | some false => shrinkExcLoop m baseline excMsg fuel cand (i + 1)
    else
      .out cand

/-- `FuzzerWorkerException._shrink_tx_sequence` (the source types the message
as `Optional[str]` but every call site passes the discovery's message). -/
def shrink_tx_sequence_exc {σ : Type} (m : Machine σ) (baseline : σ)
    (excMsg : String) (transactions : List TxSequenceElement) : ShrinkExcResult :=
  shrinkExcLoop m baseline excMsg (transactions.length + 1) transactions 0

/-- One pass of the `while 1` body of `FuzzerWorkerException.fuzz`: test a
sequence, and shrink the finding unless the no-shrink flag is set.  The
obligation set is returned as produced by `_test_tx_sequence` — shrinking
never touches it in exception mode. -/
def fuzz_iteration_exc {σ : Type} (m : Machine σ) (gen : Nat → FuzzedTx)
    (noShrink : Bool) (seqLen : Nat) (baseline : σ) (exns : List String) :
    Option ((Option (List TxSequenceElement × String)) × List String) :=
  match test_tx_sequence_exc m gen seqLen baseline exns with
  | none => none
  | some (none, exns') => some (none, exns')
  | some (some (txs, message), exns') =>
    if noShrink then some (some (txs, message), exns')
    else
      match shrink_tx_sequence_exc m baseline message txs with
      | .out txs' => some (some (txs', message), exns')
      | _ => none

/-! ### Concrete instances (used to exhibit behaviors on explicit inputs) -/

/-- A generic generated transaction. -/
def txb : FuzzedTx := ⟨0, "f", [], .External, none⟩

/-- A transaction calling a function named `"boom"`. -/
def txboom : FuzzedTx := ⟨0, "boom", [], .External, none⟩

/-- A generation stream producing `txb` forever. -/
def genb : Nat → FuzzedTx := fun _ => txb

/-- A generation stream whose first transaction is `txboom`, then `txb`. -/
def genmix : Nat → FuzzedTx := fun k => if k = 0 then txboom else txb

/-- A machine on which every mutating call succeeds silently and every
property query answers `[0]` (violated). -/
def Mok : Machine Unit :=
  ⟨fun _ _ => .ok () ⟨[], []⟩, fun _ _ => ⟨[0], []⟩⟩

/-- A machine counting applied mutating calls; a property query answers `[1]`
(holds) on the initial state and `[0]` (violated) once at least one call has
been applied. -/
def Mcount : Machine Nat :=
  ⟨fun s _ => .ok (s + 1) ⟨[], []⟩,
   fun s _ => ⟨[if s = 0 then 1 else 0], []⟩⟩

/-- A machine on which every mutating call reverts with an internal-assertion
diagnostic carrying the payload `"ov"`. -/
def Mexc : Machine Unit :=
  ⟨fun _ _ => .exn (assertionSig ++ ": ov"), fun _ _ => ⟨[1], []⟩⟩

/-- A machine on which calls to `"boom"` revert (with a non-assertion
diagnostic) and every other call succeeds; every property query answers
`[0]`. -/
def Mrev : Machine Unit :=
  ⟨fun _ tx => if tx.function_name = "boom" then .exn "error" else .ok () ⟨[], []⟩,
   fun _ _ => ⟨[0], []⟩⟩

/-! ## Theorems -/

/-! ### Generator lemmas -/

lemma randint_ge (a b s : Nat) : a ≤ randint a b s := Nat.le_add_right a _

lemma randint_le {a b : Nat} (s : Nat) (hab : a ≤ b) : randint a b s ≤ b := by
  have h : s % (b + 1 - a) < b + 1 - a := Nat.mod_lt s (by omega)
  unfold randint
  omega

lemma default_prime_lit :
    DEFAULT_PRIME =
      3618502788666131213697322783095070105623107215331596699973092056135872020481 := by
  norm_num [DEFAULT_PRIME]

lemma default_prime_half_lit :
    DEFAULT_PRIME / 2 =
      1809251394333065606848661391547535052811553607665798349986546028067936010240 := by
  rw [default_prime_lit]

lemma two_pow_128_lit : (2 : ℕ) ^ 128 = 340282366920938463463374607431768211456 := by
  norm_num

/-- Claim C6: every generated scalar field element lies in `[0, P)` for the
configured prime `P = DEFAULT_PRIME`, and the value is drawn from the
four-bucket distribution over the `random.random()` draw `r`: for `r` in
`[0, 0.5)` (mass 0.5) uniformly one of the three edge cases (a value in
`[0,2]`, a value within 1 of `2^128`, a value in `[P-3, P-1]`); for `r` in
`[0.5, 0.7)` (mass 0.2) a value in `[0, 2^128)`; for `r` in `[0.7, 0.8)`
(mass 0.1) a value in `[2^128, P/2)`; for `r` in `[0.8, 1)` (mass 0.2) a
value in `[P/2, P)` — `P/2` being Python's floor division `P // 2`. -/
theorem c6_scalar_distribution (dr : IntDraw) :
    generate_int dr < DEFAULT_PRIME ∧
    (dr.r < 1 / 2 → isEdgeCase (generate_int dr)) ∧
    (1 / 2 ≤ dr.r → dr.r < 7 / 10 → generate_int dr < 2 ^ 128) ∧
    (7 / 10 ≤ dr.r → dr.r < 4 / 5 →
      2 ^ 128 ≤ generate_int dr ∧ generate_int dr < DEFAULT_PRIME / 2) ∧
    (4 / 5 ≤ dr.r → DEFAULT_PRIME / 2 ≤ generate_int dr ∧
      generate_int dr < DEFAULT_PRIME) := by
  obtain ⟨r, ⟨i, hi⟩, e0, e1, e2, d⟩ := dr
  unfold generate_int isEdgeCase
  simp only
  have hP := default_prime_lit
  have hP2 := default_prime_half_lit
  have h128 := two_pow_128_lit
  by_cases h1 : r < 1 / 2
  · simp only [if_pos h1]
    have hb0 := randint_le e0 (show 0 ≤ 2 by norm_num)
    have hb1l := randint_ge (2 ^ 128 - 1) (2 ^ 128 + 1) e1
    have hb1 := randint_le e1 (show 2 ^ 128 - 1 ≤ 2 ^ 128 + 1 by omega)
    have hb2l := randint_ge (DEFAULT_PRIME - 3) (DEFAULT_PRIME - 1) e2
    have hb2 := randint_le e2 (show DEFAULT_PRIME - 3 ≤ DEFAULT_PRIME - 1 by omega)
    interval_cases i <;> simp only [List.get] <;>
      refine ⟨by omega, fun _ => ?_, fun h2 => absurd h1 (by simpa using not_lt.2 h2),
        fun h2 _ => absurd h1 (by simpa using not_lt.2 (le_trans (by norm_num) h2)),
        fun h2 => absurd h1 (by simpa using not_lt.2 (le_trans (by norm_num) h2))⟩
    · exact Or.inl (by omega)
    · exact Or.inr (Or.inl (by omega))
    · exact Or.inr (Or.inr (by omega))
  · simp only [if_neg h1]
    by_cases h2 : r < 7 / 10
    · simp only [if_pos h2]
      have hb := randint_le d (show 0 ≤ 2 ^ 128 - 1 by omega)
      exact ⟨by omega, fun hc => absurd hc h1, fun _ _ => by omega,
        fun hc _ => absurd h2 (not_lt.2 hc), fun hc => absurd h2 (not_lt.2 (by linarith))⟩
    · simp only [if_neg h2]
      by_cases h3 : r < 4 / 5
      · simp only [if_pos h3]
        have hbl := randint_ge (2 ^ 128) (DEFAULT_PRIME / 2 - 1) d
        have hb := randint_le d (show 2 ^ 128 ≤ DEFAULT_PRIME / 2 - 1 by omega)
        exact ⟨by omega, fun hc => absurd hc h1, fun _ hc => absurd hc h2,
          fun _ _ => ⟨by omega, by omega⟩, fun hc => absurd h3 (not_lt.2 hc)⟩
      · simp only [if_neg h3]
        have hbl := randint_ge (DEFAULT_PRIME / 2) (DEFAULT_PRIME - 1) d
        have hb := randint_le d (show DEFAULT_PRIME / 2 ≤ DEFAULT_PRIME - 1 by omega)
        exact ⟨by omega, fun hc => absurd hc h1, fun _ hc => absurd hc h2,
          fun _ hc => absurd hc h3, fun _ => ⟨by omega, by omega⟩⟩

/-- Witness for C6 at a concrete draw: `r = 0`, choice index 1, seed 5 for
the second edge candidate, giving the value `2^128 + 1`. -/
theorem c6_scalar_distribution_witness :
    generate_int ⟨0, ⟨1, by norm_num⟩, 0, 5, 0, 0⟩ < DEFAULT_PRIME ∧
      isEdgeCase (generate_int ⟨0, ⟨1, by norm_num⟩, 0, 5, 0, 0⟩) :=
  ⟨(c6_scalar_distribution _).1,
    (c6_scalar_distribution ⟨0, ⟨1, by norm_num⟩, 0, 5, 0, 0⟩).2.1 (by norm_num)⟩

/-! ### Property-oracle lemmas -/

/-- The per-property outcome of one oracle pass: `some` violation when the
read-only call answers `[0]`. -/
def violationOf {σ : Type} (m : Machine σ) (s : σ) (p : String) :
    Option ViolatedProperty :=
  if (m.call_raw s p).retdata = [0] then
    some ⟨p, (m.call_raw s p).events_emitted⟩
  else none

lemma checkLoop_false {σ : Type} (m : Machine σ) (s : σ) :
    ∀ (n : Nat) (props : List String) (k : Nat) (acc : List ViolatedProperty),
      props.length - k ≤ n →
      checkLoop m s false props k acc =
        (props, acc ++ (props.drop k).filterMap (violationOf m s)) := by
  intro n
  induction n with
  | zero =>
      intro props k acc h
      rw [checkLoop]
      rw [dif_neg (by omega)]
      rw [List.drop_eq_nil_of_le (by omega)]
      simp
  | succ n ih =>
      intro props k acc h
      rw [checkLoop]
      by_cases hk : k < props.length
      · rw [dif_pos hk]
        have hdrop : props.drop k = props.get ⟨k, hk⟩ :: props.drop (k + 1) := by
          rw [List.get_eq_getElem]
          exact List.drop_eq_getElem_cons hk
        by_cases hv : (m.call_raw s (props.get ⟨k, hk⟩)).retdata = [0]
        · simp only [if_pos hv, if_neg Bool.false_ne_true]
          rw [ih props (k + 1) _ (by omega)]
          rw [hdrop, List.filterMap_cons]
          simp only [violationOf, if_pos hv]
          simp
        · simp only [if_neg hv]
          rw [ih props (k + 1) acc (by omega)]
          rw [hdrop, List.filterMap_cons]
          simp only [violationOf, if_neg hv]
      · rw [dif_neg hk]
        rw [List.drop_eq_nil_of_le (by omega)]
        simp

lemma check_false_closed {σ : Type} (m : Machine σ) (s : σ) (props : List String) :
    check_violated_property_tests m s false props =
      (props, props.filterMap (violationOf m s)) := by
  unfold check_violated_property_tests
  rw [checkLoop_false m s props.length props 0 [] (by omega)]
  simp

lemma checkLoop_true {σ : Type} (m : Machine σ) (s : σ) :
    ∀ (n : Nat) (props : List String) (k : Nat) (acc : List ViolatedProperty),
      props.length - k ≤ n →
      ∃ rest, checkLoop m s true props k acc =
          (rest.foldl (fun ps (v : ViolatedProperty) => ps.erase v.name) props,
            acc ++ rest) ∧
        ∀ v ∈ rest, v.name ∈ props ∧ (m.call_raw s v.name).retdata = [0] ∧
          v.events_emitted = (m.call_raw s v.name).events_emitted := by
  intro n
  induction n with
  | zero =>
      intro props k acc h
      refine ⟨[], ?_, by simp⟩
      rw [checkLoop, dif_neg (by omega)]
      simp
  | succ n ih =>
      intro props k acc h
      rw [checkLoop]
      by_cases hk : k < props.length
      · rw [dif_pos hk]
        set pf := props.get ⟨k, hk⟩ with hpf
        have hpfmem : pf ∈ props := props.get_mem k hk
        by_cases hv : (m.call_raw s pf).retdata = [0]
        · simp only [if_pos hv, if_true]
          have hlen : (props.erase pf).length - (k + 1) ≤ n := by
            rw [List.length_erase_of_mem hpfmem]; omega
          obtain ⟨rest, heq, hmem⟩ := ih (props.erase pf) (k + 1)
            (acc ++ [⟨pf, (m.call_raw s pf).events_emitted⟩]) hlen
          refine ⟨⟨pf, (m.call_raw s pf).events_emitted⟩ :: rest, ?_, ?_⟩
          · rw [heq]
            simp
          · intro v hv'
            rcases List.mem_cons.mp hv' with rfl | hvr
            · exact ⟨hpfmem, hv, rfl⟩
            · obtain ⟨h1, h2, h3⟩ := hmem v hvr
              exact ⟨List.mem_of_mem_erase h1, h2, h3⟩
        · simp only [if_neg hv]
          exact ih props (k + 1) acc (by omega)
      · rw [dif_neg hk]
        exact ⟨[], by simp, by simp⟩

lemma check_true_closed {σ : Type} (m : Machine σ) (s : σ) (props : List String) :
    ∃ rest, check_violated_property_tests m s true props =
        (rest.foldl (fun ps (v : ViolatedProperty) => ps.erase v.name) props, rest) ∧
      ∀ v ∈ rest, v.name ∈ props ∧ (m.call_raw s v.name).retdata = [0] ∧
        v.events_emitted = (m.call_raw s v.name).events_emitted := by
  obtain ⟨rest, heq, hmem⟩ := checkLoop_true m s props.length props 0 [] (by omega)
  exact ⟨rest, by simpa using heq, hmem⟩

/-! ### Shrinker lemmas (property mode) -/

lemma trial_length {α : Type} (cand : List α) (i : Nat) (h : i < cand.length) :
    (cand.take i ++ cand.drop (i + 1)).length = cand.length - 1 := by
  simp [List.length_take, List.length_drop]
  omega

lemma trial_subset {α : Type} (cand : List α) (i : Nat) :
    ∀ e ∈ cand.take i ++ cand.drop (i + 1), e ∈ cand := by
  intro e he
  rcases List.mem_append.mp he with h | h
  · exact (cand.take_prefix i).subset h
  · exact (cand.drop_suffix (i + 1)).subset h

lemma shrinkLoop_total {σ : Type} (m : Machine σ) (b : σ) (ns : Bool)
    (target : Nat) :
    ∀ (fuel : Nat) (cand : List TxSequenceElement) (i : Nat) (props : List String),
      cand.length - i < fuel →
      ∃ out, shrinkLoop m b ns target fuel cand i props = some out := by
  intro fuel
  induction fuel with
  | zero => intro cand i props h; omega
  | succ fuel ih =>
      intro cand i props h
      rw [shrinkLoop]
      by_cases hk : i < cand.length
      · rw [if_pos hk]
        simp only
        by_cases hc :
            (check_violated_property_tests m
              (replaySequence m b (cand.take i ++ cand.drop (i + 1))) ns props).2.length
              = target
        · rw [if_pos hc]
          apply ih
          rw [trial_length cand i hk]
          omega
        · rw [if_neg hc]
          apply ih
          omega
      · rw [if_neg hk]
        exact ⟨(cand, props), rfl⟩

lemma shrinkLoop_false_spec {σ : Type} (m : Machine σ) (b : σ)
    (target : Nat) (props : List String) :
    ∀ (fuel : Nat) (cand : List TxSequenceElement) (i : Nat)
      (r : List TxSequenceElement) (props'' : List String),
      shrinkLoop m b false target fuel cand i props = some (r, props'') →
      props'' = props ∧ r.length ≤ cand.length ∧
        (replayCount m b props cand = target → replayCount m b props r = target) ∧
        (∀ e ∈ r, e ∈ cand) := by
  intro fuel
  induction fuel with
  | zero => intro cand i r props'' h; simp [shrinkLoop] at h
  | succ fuel ih =>
      intro cand i r props'' h
      rw [shrinkLoop] at h
      by_cases hk : i < cand.length
      · rw [if_pos hk] at h
        simp only at h
        have hchk : check_violated_property_tests m
            (replaySequence m b (cand.take i ++ cand.drop (i + 1))) false props =
            (props, props.filterMap
              (violationOf m (replaySequence m b (cand.take i ++ cand.drop (i + 1))))) :=
          check_false_closed m _ props
        rw [hchk] at h
        by_cases hc : (props.filterMap
            (violationOf m (replaySequence m b (cand.take i ++ cand.drop (i + 1))))).length
            = target
        · rw [if_pos hc] at h
          obtain ⟨h1, h2, h3, h4⟩ := ih _ _ _ _ h
          refine ⟨h1, ?_, fun _ => ?_, fun e he => trial_subset cand i e (h4 e he)⟩
          · have := trial_length cand i hk
            omega
          · apply h3
            show (check_violated_property_tests m
              (replaySequence m b (cand.take i ++ cand.drop (i + 1))) false props).2.length
              = target
            rw [hchk]
            exact hc
        · rw [if_neg hc] at h
          exact ih _ _ _ _ h
      · rw [if_neg hk] at h
        obtain ⟨rfl, rfl⟩ : cand = r ∧ props = props'' := by
          constructor <;> [exact congrArg Prod.fst (Option.some.inj h);
            exact congrArg Prod.snd (Option.some.inj h)]
        exact ⟨rfl, le_refl _, fun hc => hc, fun e he => he⟩

lemma shrinkLoop_noremove {σ : Type} (m : Machine σ) (b : σ) (target : Nat)
    (props : List String) (cand : List TxSequenceElement)
    (hno : ∀ j, j < cand.length →
      replayCount m b props (cand.take j ++ cand.drop (j + 1)) ≠ target) :
    ∀ (fuel : Nat) (i : Nat), cand.length - i < fuel →
      shrinkLoop m b false target fuel cand i props = some (cand, props) := by
  intro fuel
  induction fuel with
  | zero => intro i h; omega
  | succ fuel ih =>
      intro i h
      rw [shrinkLoop]
      by_cases hk : i < cand.length
      · rw [if_pos hk]
        simp only
        have hchk := check_false_closed m
          (replaySequence m b (cand.take i ++ cand.drop (i + 1))) props
        rw [hchk]
        have hcnd : ¬ ((props, List.filterMap
            (violationOf m (replaySequence m b (cand.take i ++ cand.drop (i + 1))))
            props).2.length = target) := by
          intro hc
          apply hno i hk
          unfold replayCount
          rw [hchk]
          exact hc
        rw [if_neg hcnd]
        exact ih (i + 1) (by omega)
      · rw [if_neg hk]

/-! ### Exception-mode lemmas -/

lemma testExcLoop_found {σ : Type} (m : Machine σ) (gen : Nat → FuzzedTx) :
    ∀ (n k : Nat) (s : σ) (acc : List TxSequenceElement) (exns : List String)
      (txs : List TxSequenceElement) (msg : String) (exns' : List String),
      testExcLoop m gen n k s acc exns = some (some (txs, msg), exns') →
      ∃ t ∈ exns, strStartsWith msg t = true ∧ exns' = exns.erase t := by
  intro n
  induction n with
  | zero =>
      intro k s acc exns txs msg exns' h
      simp [testExcLoop] at h
  | succ n ih =>
      intro k s acc exns txs msg exns' h
      rw [testExcLoop] at h
      cases hinv : m.invoke_raw s (gen k) with
      | ok s' info =>
          rw [hinv] at h
          exact ih _ _ _ _ _ _ _ h
      | exn em =>
          rw [hinv] at h
          simp only at h
          by_cases hsig : strStartsWith (lastLine em) assertionSig
          · rw [if_pos hsig] at h
            cases hex : extractMessage (lastLine em) with
            | none => rw [hex] at h; simp at h
            | some message =>
                rw [hex] at h
                dsimp only at h
                cases hfind : exns.find? (fun t => strStartsWith message t) with
                | none =>
                    rw [hfind] at h
                    exact ih _ _ _ _ _ _ _ h
                | some t =>
                    rw [hfind] at h
                    simp only [Option.some.injEq, Prod.mk.injEq] at h
                    obtain ⟨⟨h1, h2⟩, h3⟩ := h
                    refine ⟨t, List.mem_of_find?_eq_some hfind, ?_, h3.symm⟩
                    rw [← h2]
                    exact List.find?_some hfind
          · rw [if_neg hsig] at h
            exact ih _ _ _ _ _ _ _ h

lemma testExcLoop_nofinding {σ : Type} (m : Machine σ) (gen : Nat → FuzzedTx) :
    ∀ (n k : Nat) (s : σ) (acc : List TxSequenceElement) (exns exns' : List String),
      testExcLoop m gen n k s acc exns = some (none, exns') → exns' = exns := by
  intro n
  induction n with
  | zero =>
      intro k s acc exns exns' h
      simp [testExcLoop] at h
      exact h.symm
  | succ n ih =>
      intro k s acc exns exns' h
      rw [testExcLoop] at h
      cases hinv : m.invoke_raw s (gen k) with
      | ok s' info =>
          rw [hinv] at h
          exact ih _ _ _ _ _ h
      | exn em =>
          rw [hinv] at h
          simp only at h
          by_cases hsig : strStartsWith (lastLine em) assertionSig
          · rw [if_pos hsig] at h
            cases hex : extractMessage (lastLine em) with
            | none => rw [hex] at h; simp at h
            | some message =>
                rw [hex] at h
                dsimp only at h
                cases hfind : exns.find? (fun t => strStartsWith message t) with
                | none =>
                    rw [hfind] at h
                    exact ih _ _ _ _ _ h
                | some t =>
                    rw [hfind] at h
                    simp at h
          · rw [if_neg hsig] at h
            exact ih _ _ _ _ _ h

/-- Well-formed diagnostics: any revert whose last line carries the
assertion signature also carries a `": "`-separated payload, so the
`IndexError` crash path is unreachable. -/
def WellFormedDiag {σ : Type} (m : Machine σ) : Prop :=
  ∀ (s : σ) (tx : FuzzedTx) (em : String), m.invoke_raw s tx = .exn em →
    strStartsWith (lastLine em) assertionSig = true →
    (extractMessage (lastLine em)).isSome

lemma shrinkExcReplay_isSome {σ : Type} (m : Machine σ) (excMsg : String)
    (hwf : WellFormedDiag m) :
    ∀ (seq : List TxSequenceElement) (s : σ),
      (shrinkExcReplay m excMsg s seq).isSome := by
  intro seq
  induction seq with
  | nil => intro s; simp [shrinkExcReplay]
  | cons e rest ih =>
      intro s
      rw [shrinkExcReplay]
      cases hinv : m.invoke_raw s (txOf e) with
      | ok s' info => exact ih s'
      | exn em =>
          simp only
          by_cases hsig : strStartsWith (lastLine em) assertionSig
          · rw [if_pos hsig]
            cases hex : extractMessage (lastLine em) with
            | none =>
                have := hwf s (txOf e) em hinv hsig
                rw [hex] at this
                simp at this
            | some message =>
                by_cases hm : message = excMsg
                · simp [hm]
                · simp [hm]
                  exact ih s
          · rw [if_neg hsig]
            exact ih s

lemma shrinkExcLoop_not_fuelOut {σ : Type} (m : Machine σ) (b : σ)
    (excMsg : String) :
    ∀ (fuel : Nat) (cand : List TxSequenceElement) (i : Nat),
      cand.length - i < fuel →
      shrinkExcLoop m b excMsg fuel cand i ≠ .fuelOut := by
  intro fuel
  induction fuel with
  | zero => intro cand i h; omega
  | succ fuel ih =>
      intro cand i h
      rw [shrinkExcLoop]
      by_cases hk : i < cand.length
      · rw [if_pos hk]
        simp only
        cases shrinkExcReplay m excMsg b (cand.take i ++ cand.drop (i + 1)) with
        | none => simp
        | some found =>
            cases found with
            | true =>
                apply ih
                rw [trial_length cand i hk]
                omega
            | false =>
                apply ih
                omega
      · rw [if_neg hk]
        simp

lemma shrinkExcLoop_out_spec {σ : Type} (m : Machine σ) (b : σ) (excMsg : String) :
    ∀ (fuel : Nat) (cand : List TxSequenceElement) (i : Nat)
      (r : List TxSequenceElement),
      shrinkExcLoop m b excMsg fuel cand i = .out r →
      r.length ≤ cand.length ∧
        (shrinkExcReplay m excMsg b cand = some true →
          shrinkExcReplay m excMsg b r = some true) ∧
        (∀ e ∈ r, e ∈ cand) := by
  intro fuel
  induction fuel with
  | zero => intro cand i r h; simp [shrinkExcLoop] at h
  | succ fuel ih =>
      intro cand i r h
      rw [shrinkExcLoop] at h
      by_cases hk : i < cand.length
      · rw [if_pos hk] at h
        simp only at h
        cases hrep : shrinkExcReplay m excMsg b (cand.take i ++ cand.drop (i + 1)) with
        | none => rw [hrep] at h; simp at h
        | some found =>
            rw [hrep] at h
            cases found with
            | true =>
                obtain ⟨h1, h2, h3⟩ := ih _ _ _ h
                refine ⟨?_, fun _ => h2 hrep,
                  fun e he => trial_subset cand i e (h3 e he)⟩
                have := trial_length cand i hk
                omega
            | false => exact ih _ _ _ h
      · rw [if_neg hk] at h
        cases h
        exact ⟨le_refl _, fun hc => hc, fun e he => he⟩

lemma shrinkExcLoop_total {σ : Type} (m : Machine σ) (b : σ) (excMsg : String)
    (hwf : WellFormedDiag m) :
    ∀ (fuel : Nat) (cand : List TxSequenceElement) (i : Nat),
      cand.length - i < fuel →
      ∃ r, shrinkExcLoop m b excMsg fuel cand i = .out r := by
  intro fuel
  induction fuel with
  | zero => intro cand i h; omega
  | succ fuel ih =>
      intro cand i h
      rw [shrinkExcLoop]
      by_cases hk : i < cand.length
      · rw [if_pos hk]
        simp only
        cases hrep : shrinkExcReplay m excMsg b (cand.take i ++ cand.drop (i + 1)) with
        | none =>
            have := shrinkExcReplay_isSome m excMsg hwf
              (cand.take i ++ cand.drop (i + 1)) b
            rw [hrep] at this
            simp at this
        | some found =>
            cases found with
            | true =>
                apply ih
                rw [trial_length cand i hk]
                omega
            | false =>
                apply ih
                omega
      · rw [if_neg hk]
        exact ⟨cand, rfl⟩

lemma shrinkExcLoop_noremove {σ : Type} (m : Machine σ) (b : σ) (excMsg : String)
    (cand : List TxSequenceElement)
    (hno : ∀ j, j < cand.length →
      shrinkExcReplay m excMsg b (cand.take j ++ cand.drop (j + 1)) ≠ some true)
    (hwf : WellFormedDiag m) :
    ∀ (fuel : Nat) (i : Nat), cand.length - i < fuel →
      shrinkExcLoop m b excMsg fuel cand i = .out cand := by
  intro fuel
  induction fuel with
  | zero => intro i h; omega
  | succ fuel ih =>
      intro i h
      rw [shrinkExcLoop]
      by_cases hk : i < cand.length
      · rw [if_pos hk]
        simp only
        cases hrep : shrinkExcReplay m excMsg b (cand.take i ++ cand.drop (i + 1)) with
        | none =>
            have := shrinkExcReplay_isSome m excMsg hwf
              (cand.take i ++ cand.drop (i + 1)) b
            rw [hrep] at this
            simp at this
        | some found =>
            cases found with
            | true => exact absurd hrep (hno i hk)
            | false => exact ih (i + 1) (by omega)
      · rw [if_neg hk]

lemma generate_array_length_bounds (s : Nat) :
    1 ≤ generate_array_length s ∧ generate_array_length s ≤ 10 :=
  ⟨randint_ge 1 10 s, randint_le s (by norm_num)⟩

lemma generate_value_two_felt_tuple (ent : Entropy) (ci cl : Nat) :
    generate_value ent (.TypeTuple [.TypeFelt, .TypeFelt]) (ci, cl) =
      ([generate_int (ent.intDraws ci), generate_int (ent.intDraws (ci + 1))],
        (ci + 2, cl)) := by
  simp [generate_value, generate_seq]

lemma generate_repeat_two_felt_tuple (ent : Entropy) (n : Nat) :
    ∀ ci cl, generate_repeat ent (.TypeTuple [.TypeFelt, .TypeFelt]) n (ci, cl) =
      ((List.range n).map (fun j =>
          [generate_int (ent.intDraws (ci + 2 * j)),
           generate_int (ent.intDraws (ci + 2 * j + 1))]) |>.flatten,
        (ci + 2 * n, cl)) := by
  induction n with
  | zero => intro ci cl; simp [generate_repeat]
  | succ n ih =>
      intro ci cl
      rw [generate_repeat, generate_value_two_felt_tuple]
      simp only [ih (ci + 2)]
      rw [List.range_succ_eq_map]
      simp only [List.map_cons, List.map_map, List.flatten_cons]
      have hfun : (fun j => [generate_int (ent.intDraws (ci + 2 + 2 * j)),
          generate_int (ent.intDraws (ci + 2 + 2 * j + 1))]) =
          ((fun j => [generate_int (ent.intDraws (ci + 2 * j)),
            generate_int (ent.intDraws (ci + 2 * j + 1))]) ∘ Nat.succ) := by
        funext j
        simp only [Function.comp_apply]
        have h1 : ci + 2 + 2 * j = ci + 2 * j.succ := by omega
        rw [h1]
      rw [hfun]
      simp only [Nat.mul_zero, Nat.add_zero, Prod.mk.injEq]
      exact ⟨trivial, by omega, trivial⟩

/-- Claim C7: generation lowers every argument-type tree to a flat scalar
list deterministically in shape.  A felt contributes exactly one drawn
scalar; a pointer-style array first draws a length in `[1, 10]`, appends it,
and then generates that many pointee elements; tuples and structs generate
each component/member recursively in declared order (concatenating in that
order); and an array of `L` 2-tuples of scalars contributes exactly
`1 + 2 * L` scalars. -/
theorem c7_value_generation_shape (ent : Entropy) :
    (∀ ci cl, generate_value ent .TypeFelt (ci, cl) =
        ([generate_int (ent.intDraws ci)], (ci + 1, cl))) ∧
    (∀ p ci cl,
        generate_value ent (.TypePointer p) (ci, cl) =
          (generate_array_length (ent.lenSeeds cl) ::
              (generate_repeat ent p (generate_array_length (ent.lenSeeds cl))
                (ci, cl + 1)).1,
            (generate_repeat ent p (generate_array_length (ent.lenSeeds cl))
              (ci, cl + 1)).2) ∧
        1 ≤ generate_array_length (ent.lenSeeds cl) ∧
        generate_array_length (ent.lenSeeds cl) ≤ 10) ∧
    (∀ ts c, generate_value ent (.TypeTuple ts) c = generate_seq ent ts c) ∧
    (∀ nm ms c, generate_value ent (.TypeStruct nm ms) c = generate_seq ent ms c) ∧
    (∀ t ts c, generate_seq ent (t :: ts) c =
        ((generate_value ent t c).1 ++ (generate_seq ent ts (generate_value ent t c).2).1,
          (generate_seq ent ts (generate_value ent t c).2).2)) ∧
    (∀ n c, generate_repeat ent .TypeFelt (n + 1) c =
        ((generate_value ent .TypeFelt c).1 ++
            (generate_repeat ent .TypeFelt n (generate_value ent .TypeFelt c).2).1,
          (generate_repeat ent .TypeFelt n (generate_value ent .TypeFelt c).2).2)) ∧
    (∀ ci cl,
        (generate_value ent (.TypePointer (.TypeTuple [.TypeFelt, .TypeFelt]))
            (ci, cl)).1.length =
          1 + 2 * generate_array_length (ent.lenSeeds cl)) := by
  refine ⟨fun ci cl => by simp [generate_value],
    fun p ci cl => ⟨by rw [generate_value], generate_array_length_bounds _⟩,
    fun ts c => by rw [generate_value],
    fun nm ms c => by rw [generate_value],
    fun t ts c => by rw [generate_seq],
    fun n c => by rw [generate_repeat],
    fun ci cl => ?_⟩
  rw [generate_value, generate_repeat_two_felt_tuple]
  simp only [List.length_cons, List.length_flatten, List.map_map]
  have : ∀ j, ((List.length ∘ fun j =>
      [generate_int (ent.intDraws (ci + 2 * j)),
       generate_int (ent.intDraws (ci + 2 * j + 1))]) j) = 2 := fun j => rfl
  rw [List.map_congr_left (fun j _ => this j)]
  simp only [List.map_const', List.length_range, List.sum_replicate, smul_eq_mul]
  omega

/-- Claim C1 (amended): ObligationSet entries are removed at most once and
only upon an accepted violation, never speculatively.  In property mode,
with the no-shrink flag set the check removes exactly the properties it
reports violated (each erased once, and only properties whose read-only call
answered `[0]`); with the flag clear the check removes nothing and the
shrinker erases exactly the originally reported properties at its end.  In
exception mode, removal always happens immediately when `_test_tx_sequence`
accepts the violation — before any shrinking, regardless of the no-shrink
flag — exactly one prefix-matched template is erased, and an iteration with
no finding removes nothing. -/
theorem c1_obligation_removal :
    (∀ (σ : Type) (m : Machine σ) (s : σ) (props props' : List String)
        (violated : List ViolatedProperty),
        check_violated_property_tests m s true props = (props', violated) →
        props' = violated.foldl (fun ps v => ps.erase v.name) props ∧
        ∀ v ∈ violated, v.name ∈ props ∧ (m.call_raw s v.name).retdata = [0]) ∧
    (∀ (σ : Type) (m : Machine σ) (s : σ) (props : List String),
        (check_violated_property_tests m s false props).1 = props) ∧
    (∀ (σ : Type) (m : Machine σ) (b : σ) (txs : List TxSequenceElement)
        (viol : List ViolatedProperty) (props : List String),
        (shrink_tx_sequence m b false txs viol props).2 =
          viol.foldl (fun ps v => ps.erase v.name) props) ∧
    (∀ (σ : Type) (m : Machine σ) (gen : Nat → FuzzedTx) (seqLen : Nat) (b : σ)
        (exns : List String) (txs : List TxSequenceElement) (msg : String)
        (exns' : List String),
        test_tx_sequence_exc m gen seqLen b exns = some (some (txs, msg), exns') →
        ∃ t ∈ exns, strStartsWith msg t = true ∧ exns' = exns.erase t) ∧
    (∀ (σ : Type) (m : Machine σ) (gen : Nat → FuzzedTx) (seqLen : Nat) (b : σ)
        (exns exns' : List String),
        test_tx_sequence_exc m gen seqLen b exns = some (none, exns') →
        exns' = exns) := by
  refine ⟨?_, ?_, ?_, ?_, ?_⟩
  · intro σ m s props props' violated h
    obtain ⟨rest, heq, hmem⟩ := check_true_closed m s props
    rw [heq] at h
    obtain ⟨h1, h2⟩ := Prod.mk.injEq .. ▸ h
    subst h2
    exact ⟨h1.symm, fun v hv => ⟨(hmem v hv).1, (hmem v hv).2.1⟩⟩
  · intro σ m s props
    rw [check_false_closed]
  · intro σ m b txs viol props
    obtain ⟨⟨r, props''⟩, hout⟩ :=
      shrinkLoop_total m b false viol.length (txs.length + 1) txs 0 props (by omega)
    unfold shrink_tx_sequence
    rw [hout]
    obtain ⟨hp, -, -, -⟩ := shrinkLoop_false_spec m b viol.length props _ _ _ _ _ hout
    rw [hp]
  · intro σ m gen seqLen b exns txs msg exns' h
    exact testExcLoop_found m gen seqLen 0 b [] exns txs msg exns' h
  · intro σ m gen seqLen b exns exns' h
    exact testExcLoop_nofinding m gen seqLen 0 b [] exns exns' h

/-- Counterexample to C1 as stated: in exception mode with shrinking enabled
(`no_shrink` clear), the obligation `"ov"` is removed by `_test_tx_sequence`
itself, at discovery — the obligation set returned by the discovery step is
already empty before `_shrink_tx_sequence` ever runs, contradicting
"otherwise is deferred until shrinking of the violating sequence
completes". -/
theorem c1_counterexample :
    test_tx_sequence_exc Mexc genb 1 () ["ov"] =
      some (some ([elemOf txb []], "ov"), []) ∧
    fuzz_iteration_exc Mexc genb false 1 () ["ov"] =
      some (some ([elemOf txb []], "ov"), []) := by
  constructor <;> decide

/-- Witness for C1 at concrete inputs: the no-shrink check on `Mok` removes
exactly the violated property it reports, and the exception-mode discovery
on `Mexc` removes exactly the prefix-matched template. -/
theorem c1_obligation_removal_witness :
    (["p2"] : List String) =
      [ViolatedProperty.mk "p1" []].foldl (fun ps v => ps.erase v.name) ["p1", "p2"] ∧
    (∃ t ∈ (["ov"] : List String), strStartsWith "ov" t = true ∧
      ([] : List String) = ["ov"].erase t) :=
  ⟨(c1_obligation_removal.1 Unit Mok () ["p1", "p2"] ["p2"]
      [ViolatedProperty.mk "p1" []]
      (by simp [check_violated_property_tests, checkLoop, Mok, List.erase])).1,
   c1_obligation_removal.2.2.2.1 Unit Mexc genb 1 () ["ov"]
      [elemOf txb []] "ov" [] (by decide)⟩

/-- Counterexample to C4 as stated: on `Mok` (every property answers `[0]`)
with the no-shrink flag set, one oracle pass over the live set
`["p1", "p2"]` reports only `"p1"`.  The property `"p2"` is still live
afterwards and its read-only call answers `[0]`, yet it appears in no
reported violation of the pass: removing `"p1"` from the list being
iterated shifts `"p2"` into the yielded slot and the iterator skips it, so
not every still-live property was checked. -/
theorem c4_counterexample :
    check_violated_property_tests Mok () true ["p1", "p2"] =
      (["p2"], [ViolatedProperty.mk "p1" []]) ∧
    "p2" ∈ (check_violated_property_tests Mok () true ["p1", "p2"]).1 ∧
    (Mok.call_raw () "p2").retdata = [0] ∧
    ∀ v ∈ (check_violated_property_tests Mok () true ["p1", "p2"]).2,
      v.name ≠ "p2" := by
  have h : check_violated_property_tests Mok () true ["p1", "p2"] =
      (["p2"], [ViolatedProperty.mk "p1" []]) := by
    simp [check_violated_property_tests, checkLoop, Mok, List.erase]
  refine ⟨h, ?_, by decide, ?_⟩
  · rw [h]; decide
  · rw [h]; decide

/-- Claim C4 (amended): during sequence construction in property mode the
oracle is evaluated after every successful mutating call — never after a
reverted one and not only at sequence end — and as soon as it reports one
or more violations the iteration stops immediately, returning the sequence
built so far with the violated properties.  With the no-shrink flag clear,
one oracle pass checks every still-live property from the configured
property sender and reports exactly those whose read-only call answers
`[0]` (with their emitted events); with the flag set, the in-place removal
of a violated property makes the pass skip the list entry that slides into
its slot. -/
theorem c4_oracle_polling :
    (∀ (σ : Type) (m : Machine σ) (s : σ) (props : List String),
        check_violated_property_tests m s false props =
          (props, props.filterMap (violationOf m s))) ∧
    (∀ (σ : Type) (m : Machine σ) (gen : Nat → FuzzedTx) (ns : Bool)
        (n k : Nat) (s s' : σ) (info : CallInfo) (acc : List TxSequenceElement)
        (props props' : List String) (violated : List ViolatedProperty),
        m.invoke_raw s (gen k) = .ok s' info →
        check_violated_property_tests m s' ns props = (props', violated) →
        (violated.length > 0 →
          testLoop m gen ns (n + 1) k s acc props =
            (some (acc ++ [elemOf (gen k) info.events_emitted], violated), props')) ∧
        (violated = [] →
          testLoop m gen ns (n + 1) k s acc props =
            testLoop m gen ns n (k + 1) s'
              (acc ++ [elemOf (gen k) info.events_emitted]) props')) := by
  constructor
  · intro σ m s props
    exact check_false_closed m s props
  · intro σ m gen ns n k s s' info acc props props' violated hinv hchk
    constructor
    · intro hpos
      rw [testLoop, hinv]
      simp only [hchk]
      rw [if_pos hpos]
    · intro hempty
      rw [testLoop, hinv]
      simp only [hchk]
      rw [if_neg (by simp [hempty])]

/-- Witness for C4 at concrete inputs: on `Mok` the first successful call
triggers an oracle pass that reports the single live property, and the
iteration returns at once with the one-element sequence. -/
theorem c4_oracle_polling_witness :
    check_violated_property_tests Mok () false ["p"] =
      (["p"], [ViolatedProperty.mk "p" []]) ∧
    testLoop Mok genb false 3 0 () [] ["p"] =
      (some ([elemOf txb []], [ViolatedProperty.mk "p" []]), ["p"]) := by
  have h1 := c4_oracle_polling.1 Unit Mok () ["p"]
  have h1c : check_violated_property_tests Mok () false ["p"] =
      (["p"], [ViolatedProperty.mk "p" []]) := by
    rw [h1]; decide
  refine ⟨h1c, ?_⟩
  have h2 := (c4_oracle_polling.2 Unit Mok genb false 2 0 () () ⟨[], []⟩ [] ["p"]
      ["p"] [ViolatedProperty.mk "p" []] rfl h1c).1 (by decide)
  simpa [genb] using h2

lemma testLoop_avoid {σ : Type} (m : Machine σ) (gen : Nat → FuzzedTx)
    (ns : Bool) (f : String)
    (hf : ∀ (s : σ) (tx : FuzzedTx), tx.function_name = f →
      ∃ em, m.invoke_raw s tx = .exn em) :
    ∀ (n k : Nat) (s : σ) (acc : List TxSequenceElement) (props : List String)
      (txs : List TxSequenceElement) (viol : List ViolatedProperty)
      (props' : List String),
      (∀ e ∈ acc, e.function_name ≠ f) →
      testLoop m gen ns n k s acc props = (some (txs, viol), props') →
      ∀ e ∈ txs, e.function_name ≠ f := by
  intro n
  induction n with
  | zero =>
      intro k s acc props txs viol props' hacc h
      simp [testLoop] at h
  | succ n ih =>
      intro k s acc props txs viol props' hacc h
      rw [testLoop] at h
      cases hinv : m.invoke_raw s (gen k) with
      | exn em =>
          rw [hinv] at h
          exact ih _ _ _ _ _ _ _ hacc h
      | ok s' info =>
          rw [hinv] at h
          simp only at h
          have hname : (gen k).function_name ≠ f := by
            intro heq
            obtain ⟨em, hc⟩ := hf s (gen k) heq
            rw [hinv] at hc
            cases hc
          have hacc' : ∀ e ∈ acc ++ [elemOf (gen k) info.events_emitted],
              e.function_name ≠ f := by
            intro e he
            rcases List.mem_append.mp he with h1 | h1
            · exact hacc e h1
            · rcases List.mem_singleton.mp h1 with rfl
              exact hname
          by_cases hl : (check_violated_property_tests m s' ns props).2.length > 0
          · rw [if_pos hl] at h
            obtain ⟨h1, -⟩ := Prod.mk.injEq .. ▸ h
            obtain ⟨h2, -⟩ := Prod.mk.injEq .. ▸ Option.some.inj h1.symm
            intro e he
            exact hacc' e (h2 ▸ he)
          · rw [if_neg hl] at h
            exact ih _ _ _ _ _ _ _ hacc' h

lemma shrinkLoop_subset {σ : Type} (m : Machine σ) (b : σ) (ns : Bool)
    (target : Nat) :
    ∀ (fuel : Nat) (cand : List TxSequenceElement) (i : Nat)
      (props : List String) (r : List TxSequenceElement) (props' : List String),
      shrinkLoop m b ns target fuel cand i props = some (r, props') →
      ∀ e ∈ r, e ∈ cand := by
  intro fuel
  induction fuel with
  | zero => intro cand i props r props' h; simp [shrinkLoop] at h
  | succ fuel ih =>
      intro cand i props r props' h
      rw [shrinkLoop] at h
      by_cases hk : i < cand.length
      · rw [if_pos hk] at h
        simp only at h
        by_cases hc : (check_violated_property_tests m
            (replaySequence m b (cand.take i ++ cand.drop (i + 1))) ns props).2.length
            = target
        · rw [if_pos hc] at h
          intro e he
          exact trial_subset cand i e (ih _ _ _ _ _ h e he)
        · rw [if_neg hc] at h
          exact ih _ _ _ _ _ h
      · rw [if_neg hk] at h
        obtain ⟨h1, -⟩ := Prod.mk.injEq .. ▸ Option.some.inj h
        intro e he
        exact h1 ▸ he

/-- Claim C5: in property mode a mutating call that reverts during sequence
construction is never appended to the sequence and never triggers oracle
evaluation — the loop continues with the next generated call leaving state,
sequence and obligation set untouched; consequently a function that always
reverts never appears in a sequence returned by `_test_tx_sequence`, nor in
any shrunk sequence (shrinking only ever removes elements). -/
theorem c5_reverts_discarded :
    (∀ (σ : Type) (m : Machine σ) (gen : Nat → FuzzedTx) (ns : Bool)
        (n k : Nat) (s : σ) (acc : List TxSequenceElement) (props : List String)
        (em : String),
        m.invoke_raw s (gen k) = .exn em →
        testLoop m gen ns (n + 1) k s acc props =
          testLoop m gen ns n (k + 1) s acc props) ∧
    (∀ (σ : Type) (m : Machine σ) (gen : Nat → FuzzedTx) (ns : Bool)
        (seqLen : Nat) (b : σ) (props : List String) (f : String),
        (∀ (s : σ) (tx : FuzzedTx), tx.function_name = f →
          ∃ em, m.invoke_raw s tx = .exn em) →
        ∀ txs viol props',
          test_tx_sequence m gen ns seqLen b props = (some (txs, viol), props') →
          ∀ e ∈ txs, e.function_name ≠ f) ∧
    (∀ (σ : Type) (m : Machine σ) (b : σ) (ns : Bool) (target fuel : Nat)
        (cand : List TxSequenceElement) (i : Nat) (props : List String)
        (r : List TxSequenceElement) (props' : List String),
        shrinkLoop m b ns target fuel cand i props = some (r, props') →
        ∀ e ∈ r, e ∈ cand) := by
  refine ⟨?_, ?_, ?_⟩
  · intro σ m gen ns n k s acc props em hinv
    rw [testLoop, hinv]
  · intro σ m gen ns seqLen b props f hf txs viol props' h
    exact testLoop_avoid m gen ns f hf seqLen 0 b [] props txs viol props'
      (by intro e he; cases he) h
  · intro σ m b ns target fuel cand i props r props' h
    exact shrinkLoop_subset m b ns target fuel cand i props r props' h

/-- Witness for C5 at concrete inputs: on `Mrev` (where `"boom"` always
reverts) with the stream `genmix` whose first call is `"boom"`, the revert
step leaves the loop state unchanged, and the returned sequence — built
from the second, successful call — contains no `"boom"` element. -/
theorem c5_reverts_discarded_witness :
    testLoop Mrev genmix false 2 0 () [] ["p"] =
      testLoop Mrev genmix false 1 1 () [] ["p"] ∧
    ∀ e ∈ [elemOf txb []], e.function_name ≠ "boom" :=
  ⟨c5_reverts_discarded.1 Unit Mrev genmix false 1 0 () [] ["p"] "error" rfl,
   c5_reverts_discarded.2.1 Unit Mrev genmix false 2 () ["p"] "boom"
     (fun s tx htx => ⟨"error", by simp [Mrev, htx]⟩)
     [elemOf txb []] [ViolatedProperty.mk "p" []] ["p"]
     (by simp [test_tx_sequence, testLoop, genmix, txboom, txb, Mrev, elemOf,
       check_violated_property_tests, checkLoop])⟩

/-- Claim C2: given a failing sequence that reproduces its violation, the
shrinker returns a sequence no longer than its input which still reproduces
an equivalent violation when replayed from the baseline — the same count of
simultaneously violated properties in property mode, the same exception
message in exception mode — and if no single-element removal reproduces the
violation, the original sequence is returned unchanged.  (Exception mode
additionally assumes well-formed assertion diagnostics, under which the
source's `IndexError` path is unreachable.) -/
theorem c2_shrinker_correct
    (σ₁ σ₂ : Type) (m₁ : Machine σ₁) (b₁ : σ₁) (props : List String)
    (txs : List TxSequenceElement) (viol : List ViolatedProperty)
    (m₂ : Machine σ₂) (b₂ : σ₂) (emsg : String) (etxs : List TxSequenceElement)
    (hrep : replayCount m₁ b₁ props txs = viol.length)
    (hwf : WellFormedDiag m₂)
    (herep : shrinkExcReplay m₂ emsg b₂ etxs = some true) :
    ((shrink_tx_sequence m₁ b₁ false txs viol props).1.length ≤ txs.length ∧
     replayCount m₁ b₁ props (shrink_tx_sequence m₁ b₁ false txs viol props).1 =
       viol.length ∧
     ((∀ i, i < txs.length →
         replayCount m₁ b₁ props (txs.eraseIdx i) ≠ viol.length) →
       (shrink_tx_sequence m₁ b₁ false txs viol props).1 = txs)) ∧
    (∃ r, shrink_tx_sequence_exc m₂ b₂ emsg etxs = .out r ∧
      r.length ≤ etxs.length ∧ shrinkExcReplay m₂ emsg b₂ r = some true ∧
      ((∀ i, i < etxs.length →
          shrinkExcReplay m₂ emsg b₂ (etxs.eraseIdx i) ≠ some true) →
        r = etxs)) := by
  constructor
  · obtain ⟨⟨r, props''⟩, hout⟩ :=
      shrinkLoop_total m₁ b₁ false viol.length (txs.length + 1) txs 0 props
        (by omega)
    have hsp := shrinkLoop_false_spec m₁ b₁ viol.length props _ _ _ _ _ hout
    unfold shrink_tx_sequence
    rw [hout]
    refine ⟨hsp.2.1, hsp.2.2.1 hrep, fun hno => ?_⟩
    have hnt : ∀ j, j < txs.length →
        replayCount m₁ b₁ props (txs.take j ++ txs.drop (j + 1)) ≠ viol.length := by
      intro j hj
      have h := hno j hj
      rwa [List.eraseIdx_eq_take_drop_succ] at h
    have hfix := shrinkLoop_noremove m₁ b₁ viol.length props txs hnt
      (txs.length + 1) 0 (by omega)
    rw [hfix] at hout
    obtain ⟨h1, -⟩ := Prod.mk.injEq .. ▸ Option.some.inj hout
    exact h1.symm
  · obtain ⟨r, hout⟩ :=
      shrinkExcLoop_total m₂ b₂ emsg hwf (etxs.length + 1) etxs 0 (by omega)
    have hsp := shrinkExcLoop_out_spec m₂ b₂ emsg _ _ _ _ hout
    refine ⟨r, hout, hsp.1, hsp.2.1 herep, fun hno => ?_⟩
    have hnt : ∀ j, j < etxs.length →
        shrinkExcReplay m₂ emsg b₂ (etxs.take j ++ etxs.drop (j + 1)) ≠ some true := by
      intro j hj
      have h := hno j hj
      rwa [List.eraseIdx_eq_take_drop_succ] at h
    have hfix := shrinkExcLoop_noremove m₂ b₂ emsg etxs hnt hwf
      (etxs.length + 1) 0 (by omega)
    rw [hfix] at hout
    cases hout
    rfl

/-- Witness for C2 at concrete inputs: on `Mcount` the single-element
failing sequence for the property `"q"` (which needs one prior call) is
already minimal and returned unchanged; likewise the exception-mode
single-element sequence reproducing `"ov"` on `Mexc`. -/
theorem c2_shrinker_correct_witness :
    (shrink_tx_sequence Mcount 0 false [elemOf txb []]
        [ViolatedProperty.mk "q" []] ["q"]).1 = [elemOf txb []] ∧
    shrink_tx_sequence_exc Mexc () "ov" [elemOf txb []] = .out [elemOf txb []] := by
  have hrep : replayCount Mcount 0 ["q"] [elemOf txb []] =
      [ViolatedProperty.mk "q" []].length := by
    simp [replayCount, replaySequence, check_violated_property_tests, checkLoop,
      Mcount, txOf, txb, elemOf]
  have hwf : WellFormedDiag Mexc := by
    intro s tx em h hsig
    simp only [Mexc] at h
    cases h
    decide
  have herep : shrinkExcReplay Mexc "ov" () [elemOf txb []] = some true := by
    decide
  have h := c2_shrinker_correct Nat Unit Mcount 0 ["q"] [elemOf txb []]
    [ViolatedProperty.mk "q" []] Mexc () "ov" [elemOf txb []] hrep hwf herep
  constructor
  · refine h.1.2.2 ?_
    intro i hi
    have hi0 : i = 0 := by simpa using hi
    subst hi0
    simp [replayCount, replaySequence, check_violated_property_tests, checkLoop,
      Mcount]
  · obtain ⟨r, h1, -, -, h4⟩ := h.2
    rw [h4 ?_] at h1
    · exact h1
    · intro i hi
      have hi0 : i = 0 := by simpa using hi
      subst hi0
      decide

/-- Claim C8: in exception mode, when a call reverts with a diagnostic whose
last line matches the internal-assertion signature and whose extracted
payload prefix-matches a live obligation, a violation is reported: the
matched template is consumed and the reverted call itself becomes the
terminal `TxSequenceElement` of the returned sequence, carrying the empty
emitted-events list. -/
theorem c8_exception_terminal_element
    (σ : Type) (m : Machine σ) (gen : Nat → FuzzedTx) (n k : Nat) (s : σ)
    (acc : List TxSequenceElement) (exns : List String) (em msg t : String)
    (hinv : m.invoke_raw s (gen k) = .exn em)
    (hsig : strStartsWith (lastLine em) assertionSig = true)
    (hex : extractMessage (lastLine em) = some msg)
    (hfind : exns.find? (fun u => strStartsWith msg u) = some t) :
    testExcLoop m gen (n + 1) k s acc exns =
      some (some (acc ++ [elemOf (gen k) []], msg), exns.erase t) ∧
    (acc ++ [elemOf (gen k) []]).getLast? = some (elemOf (gen k) []) ∧
    (elemOf (gen k) []).events_emitted = [] ∧
    t ∈ exns ∧ strStartsWith msg t = true := by
  refine ⟨?_, List.getLast?_concat _, rfl, List.mem_of_find?_eq_some hfind,
    List.find?_some hfind⟩
  rw [testExcLoop, hinv]
  simp only
  rw [if_pos hsig, hex]
  dsimp only
  rw [hfind]

/-- Witness for C8 at concrete inputs: on `Mexc` the first call reverts with
`"...AssertionException: ov"`, matching the live template `"ov"`; the
one-element returned sequence ends with the reverted call and no events. -/
theorem c8_exception_terminal_element_witness :
    testExcLoop Mexc genb 1 0 () [] ["ov"] =
      some (some ([] ++ [elemOf txb []], "ov"), ["ov"].erase "ov") ∧
    (([] : List TxSequenceElement) ++ [elemOf txb []]).getLast? =
      some (elemOf txb []) ∧
    (elemOf txb []).events_emitted = [] :=
  have h := c8_exception_terminal_element Unit Mexc genb 0 0 () [] ["ov"]
    (assertionSig ++ ": ov") "ov" "ov" rfl (by decide) (by decide) (by decide)
  ⟨h.1, h.2.1, h.2.2.1⟩

/-- Claim C9: the shrinking loops terminate for every finite input.  Each
step either adopts the strictly shorter trial (cursor fixed) or advances the
cursor, so the measure `candidate.length - cursor` strictly decreases; any
fuel exceeding it is never exhausted, in property mode and in exception
mode alike. -/
theorem c9_shrink_terminates :
    (∀ (σ : Type) (m : Machine σ) (b : σ) (ns : Bool) (target fuel : Nat)
        (cand : List TxSequenceElement) (i : Nat) (props : List String),
        cand.length - i < fuel →
        ∃ out, shrinkLoop m b ns target fuel cand i props = some out) ∧
    (∀ (σ : Type) (m : Machine σ) (b : σ) (excMsg : String) (fuel : Nat)
        (cand : List TxSequenceElement) (i : Nat),
        cand.length - i < fuel →
        shrinkExcLoop m b excMsg fuel cand i ≠ .fuelOut) :=
  ⟨fun _ m b ns target fuel cand i props h =>
      shrinkLoop_total m b ns target fuel cand i props h,
   fun _ m b excMsg fuel cand i h =>
      shrinkExcLoop_not_fuelOut m b excMsg fuel cand i h⟩

/-- Witness for C9 at concrete inputs: one unit of fuel settles the empty
candidate in both modes. -/
theorem c9_shrink_terminates_witness :
    (∃ out, shrinkLoop Mok () false 0 1 [] 0 [] = some out) ∧
    shrinkExcLoop Mexc () "ov" 1 [] 0 ≠ .fuelOut :=
  ⟨c9_shrink_terminates.1 Unit Mok () false 0 1 [] 0 [] (by norm_num),
   c9_shrink_terminates.2 Unit Mexc () "ov" 1 [] 0 (by norm_num)⟩

/-- Claim C10: the equivalence test used during exception-mode shrinking is
strictly stricter than the acceptance test of discovery.  A shrink-trial
replay accepts a revert only when the extracted message equals — full
string equality — the original violation's extracted message, whereas
discovery accepts any extracted message that starts with a registered
template; equality with a template-matching original implies the
template-match, and strictly more messages pass the prefix test. -/
theorem c10_shrink_equivalence_stricter :
    (∀ (σ : Type) (m : Machine σ) (origMsg : String) (s : σ)
        (e : TxSequenceElement) (rest : List TxSequenceElement) (em msg2 : String),
        m.invoke_raw s (txOf e) = .exn em →
        strStartsWith (lastLine em) assertionSig = true →
        extractMessage (lastLine em) = some msg2 →
        shrinkExcReplay m origMsg s (e :: rest) =
          (if msg2 = origMsg then some true
            else shrinkExcReplay m origMsg s rest)) ∧
    (∀ (σ : Type) (m : Machine σ) (gen : Nat → FuzzedTx) (n k : Nat) (s : σ)
        (acc : List TxSequenceElement) (exns : List String)
        (txs : List TxSequenceElement) (msg : String) (exns' : List String),
        testExcLoop m gen n k s acc exns = some (some (txs, msg), exns') →
        ∃ t ∈ exns, strStartsWith msg t = true) ∧
    (∀ t origMsg : String, strStartsWith origMsg t = true →
        (∀ msg, msg = origMsg → strStartsWith msg t = true) ∧
        ∃ msg, strStartsWith msg t = true ∧ msg ≠ origMsg) := by
  refine ⟨?_, ?_, ?_⟩
  · intro σ m origMsg s e rest em msg2 hinv hsig hex
    rw [shrinkExcReplay, hinv]
    simp only
    rw [if_pos hsig, hex]
  · intro σ m gen n k s acc exns txs msg exns' h
    obtain ⟨t, ht, hpre, -⟩ := testExcLoop_found m gen n k s acc exns txs msg exns' h
    exact ⟨t, ht, hpre⟩
  · intro t origMsg h
    refine ⟨fun msg hm => hm ▸ h, ⟨origMsg.push 'x', ?_, ?_⟩⟩
    · unfold strStartsWith at h ⊢
      rw [List.isPrefixOf_iff_prefix] at h ⊢
      rw [String.data_push]
      exact h.trans (List.prefix_append _ _)
    · intro heq
      have hd := congrArg (fun u : String => u.data.length) heq
      simp only [String.data_push, List.length_append, List.length_cons,
        List.length_nil] at hd
      omega

/-- Witness for C10 at concrete inputs: on `Mexc` a trial-replay revert is
adopted exactly when the extracted message `"ov"` equals the original, and
`"ov2"` passes the prefix test against the template `"ov"` while failing the
equality test against the original message `"ov"`. -/
theorem c10_shrink_equivalence_stricter_witness :
    shrinkExcReplay Mexc "ov" () (elemOf txb [] :: []) =
      (if "ov" = "ov" then some true else shrinkExcReplay Mexc "ov" () []) ∧
    ∃ msg, strStartsWith msg "ov" = true ∧ msg ≠ "ov" :=
  ⟨c10_shrink_equivalence_stricter.1 Unit Mexc "ov" () (elemOf txb []) []
      (assertionSig ++ ": ov") "ov" rfl (by decide) (by decide),
   (c10_shrink_equivalence_stricter.2.2 "ov" "ov" (by decide)).2⟩

/-- Claim C3: with a single property obligation `p` whose read-only check
always answers `[0]` with no events, and whose first generated call
succeeds, the first fuzzing iteration (shrinking enabled) reports `p`
violated with no emitted events and an empty reproducing sequence, and the
obligation set is drained. -/
theorem c3_first_iteration_empty_sequence
    (σ : Type) (m : Machine σ) (gen : Nat → FuzzedTx) (p : String)
    (b : σ) (seqLen : Nat) (hlen : 0 < seqLen)
    (hprop : ∀ s, (m.call_raw s p).retdata = [0] ∧
      (m.call_raw s p).events_emitted = [])
    (hfirst : ∃ s1 info, m.invoke_raw b (gen 0) = .ok s1 info) :
    fuzz_iteration m gen false seqLen b [p] =
      (some ([], [ViolatedProperty.mk p []]), []) := by
  obtain ⟨s1, info, hinv⟩ := hfirst
  obtain ⟨n, rfl⟩ : ∃ n, seqLen = n + 1 := ⟨seqLen - 1, by omega⟩
  have hchk : ∀ s : σ, check_violated_property_tests m s false [p] =
      ([p], [ViolatedProperty.mk p []]) := by
    intro s
    rw [check_false_closed]
    simp [violationOf, (hprop s).1, (hprop s).2]
  have htest : test_tx_sequence m gen false (n + 1) b [p] =
      (some ([elemOf (gen 0) info.events_emitted],
        [ViolatedProperty.mk p []]), [p]) := by
    unfold test_tx_sequence
    rw [testLoop, hinv]
    simp only [hchk s1]
    rw [if_pos (by simp)]
    simp
  have htrial : ([elemOf (gen 0) info.events_emitted].take 0 ++
      [elemOf (gen 0) info.events_emitted].drop 1) = ([] : List TxSequenceElement) := by
    simp
  have hl1 : shrinkLoop m b false 1 2 [elemOf (gen 0) info.events_emitted] 0 [p] =
      some ([], [p]) := by
    rw [shrinkLoop]
    rw [if_pos (by simp)]
    simp only [htrial, replaySequence, hchk b]
    rw [if_pos (by simp)]
    rw [shrinkLoop]
    simp
  have hshr : shrink_tx_sequence m b false [elemOf (gen 0) info.events_emitted]
      [ViolatedProperty.mk p []] [p] = ([], []) := by
    unfold shrink_tx_sequence
    simp only [List.length_singleton]
    rw [hl1]
    simp [List.erase_cons_head]
  unfold fuzz_iteration
  rw [htest]
  simp only [Bool.false_eq_true, if_false]
  rw [hshr]

/-- Witness for C3 at concrete inputs: on `Mok` (property always violated,
no events, every call succeeds) the first iteration with `seq_len = 10`
reports `("p", no events)` with the empty sequence and drains the
obligation set. -/
theorem c3_first_iteration_empty_sequence_witness :
    fuzz_iteration Mok genb false 10 () ["p"] =
      (some ([], [ViolatedProperty.mk "p" []]), []) :=
  c3_first_iteration_empty_sequence Unit Mok genb "p" () 10 (by norm_num)
    (fun _ => ⟨rfl, rfl⟩) ⟨(), ⟨[], []⟩, rfl⟩

end Tayt
